import Mathlib

/-!
Verification of the `CardRepository` core of `src/bot.py` (world-icons-bot).

Shallow embedding conventions:
* Python `int` is `Int`; float arithmetic (`probability`, percentages) is
  modelled exactly over `ℚ`, so "≈ within floating-point tolerance" becomes
  exact equality of the real-arithmetic values.
* JSON loading is modelled at the typed level: `CardsFile.ok` / `TiersFile.ok`
  carry the already-coerced records (the `from_dict` coercions), and the
  failure constructors stand for `load_json` raising (missing file or
  malformed JSON).
* Python `dict` (insertion-ordered, unique keys, in-place overwrite) is
  modelled by association lists with `dictInsert` / `dictGet`.
* Python's stable `sorted(_, key=..., reverse=True)` is modelled by
  Mathlib's stable `List.insertionSort` with the descending relation.
* Python `str` whitespace (`\s`) is modelled by `Char.isWhitespace`,
  `str.lower` by `Char.toLower`.
-/

namespace WorldIcons

/-- Card record (`Card` dataclass, bot.py lines 37-53): `weight` is an `int`
coerced from JSON, so it may be negative in malformed data. -/
structure Card where
  key : String
  name : String
  uri : String
  image_url : String
  weight : Int
deriving DecidableEq

/-- Tier record (`Tier` dataclass, bot.py lines 56-66). -/
structure Tier where
  name : String
  min_weight : Int
deriving DecidableEq

/-- Python whitespace class used by `str.strip` and `re.sub(r"\s+", ...)`. -/
def isPySpace (c : Char) : Bool := c.isWhitespace

/-- Model of `str.strip()`: drop leading and trailing whitespace. -/
def stripChars (l : List Char) : List Char :=
  ((l.dropWhile isPySpace).reverse.dropWhile isPySpace).reverse

/-- Model of `str.lower()`. -/
def lowerChars (l : List Char) : List Char := l.map Char.toLower

/-- Model of `re.sub(r"\s+", " ", s)`: every maximal run of whitespace
characters becomes a single space. -/
def collapseChars : List Char → List Char
  | [] => []
  | [c] => if isPySpace c then [' '] else [c]
  | c1 :: c2 :: rest =>
      if isPySpace c1 && isPySpace c2 then collapseChars (c2 :: rest)
      else (if isPySpace c1 then ' ' else c1) :: collapseChars (c2 :: rest)

/-- `normalize` (bot.py lines 28-29): `re.sub(r"\s+", " ", s.strip().lower())`. -/
def normalize (s : String) : String :=
  String.mk (collapseChars (lowerChars (stripChars s.toList)))

/-- Model of list-prefix test used by `hasSub` below. -/
def leadsWith : List Char → List Char → Bool
  | [], _ => true
  | _ :: _, [] => false
  | a :: as, b :: bs => a == b && leadsWith as bs

/-- Model of Python's substring test `needle in hay` on strings. -/
def hasSub (needle : List Char) : List Char → Bool
  | [] => needle.isEmpty
  | h :: t => leadsWith needle (h :: t) || hasSub needle t

/-- First loop of `find_card` (bot.py lines 148-150): exact match on key. -/
def findByKey (q : String) : List Card → Option Card
  | [] => none
  | c :: rest => if normalize c.key == q then some c else findByKey q rest

/-- Second loop of `find_card` (bot.py lines 153-155): exact match on name. -/
def findByName (q : String) : List Card → Option Card
  | [] => none
  | c :: rest => if normalize c.name == q then some c else findByName q rest

/-- Third loop of `find_card` (bot.py lines 158-160): query substring of name. -/
def findBySub (q : String) : List Card → Option Card
  | [] => none
  | c :: rest =>
      if hasSub q.toList (normalize c.name).toList then some c else findBySub q rest

/-- `CardRepository.find_card` (bot.py lines 142-162). -/
def findCard (cards : List Card) (query : String) : Option Card :=
  let q := normalize query
  if q == "" then none
  else
    match findByKey q cards with
    | some c => some c
    | none =>
      match findByName q cards with
      | some c => some c
      | none => findBySub q cards

/-- Spec-side restatement of `find_card` for the refinement claim: the
three-stage fallback expressed with `List.find?` (first match in loaded
list order at each stage). -/
def findCardSpec (cards : List Card) (query : String) : Option Card :=
  let q := normalize query
  if q = "" then none
  else
    ((cards.find? fun c => normalize c.key == q).orElse fun _ =>
      (cards.find? fun c => normalize c.name == q).orElse fun _ =>
        cards.find? fun c => hasSub q.toList (normalize c.name).toList)

/-- `CardRepository.total_weight` (bot.py lines 102-103). -/
def totalWeight (cards : List Card) : Int :=
  (cards.map (fun c => max 0 c.weight)).sum

/-- `CardRepository.probability` (bot.py lines 105-107), float arithmetic
modelled exactly in `ℚ`. -/
def probability (cards : List Card) (c : Card) : ℚ :=
  if 0 < totalWeight cards then (c.weight : ℚ) / (totalWeight cards : ℚ) else 0

/-- `CardRepository.tier_for_card` (bot.py lines 109-114): scan the stored
tier list, return the first tier whose threshold is at or below the card's
weight, else the sentinel. -/
def tierForCard : List Tier → Card → String
  | [], _ => "Inconnu"
  | t :: rest, c => if t.min_weight ≤ c.weight then t.name else tierForCard rest c

/-- The same scan as `tierForCard`, instrumented to return the matched tier
record itself (used to talk about the matched threshold). -/
def matchedTier : List Tier → Card → Option Tier
  | [], _ => none
  | t :: rest, c => if t.min_weight ≤ c.weight then some t else matchedTier rest c

/-- Spec-side restatement of the tier scan via `List.find?`. -/
def tierForCardSpec (tiers : List Tier) (c : Card) : String :=
  match tiers.find? (fun t => decide (t.min_weight ≤ c.weight)) with
  | some t => t.name
  | none => "Inconnu"

/-- Descending comparison on tiers: the relation under which
`sorted(tiers, key=lambda t: t.min_weight, reverse=True)` sorts. -/
def tierOrder (a b : Tier) : Prop := b.min_weight ≤ a.min_weight

instance : DecidableRel tierOrder :=
  fun a b => inferInstanceAs (Decidable (b.min_weight ≤ a.min_weight))

instance : IsTotal Tier tierOrder :=
  ⟨fun a b => le_total b.min_weight a.min_weight⟩

instance : IsTrans Tier tierOrder :=
  ⟨fun _ _ _ h1 h2 => le_trans h2 h1⟩

/-- `sorted(tiers, key=lambda t: t.min_weight, reverse=True)` (bot.py
line 88): Python's sort is stable, as is `List.insertionSort`. -/
def sortTiersDesc (ts : List Tier) : List Tier :=
  List.insertionSort tierOrder ts

/-- Descending order on integers, for `sorted(..., reverse=True)` on weights. -/
def intDesc (a b : Int) : Prop := b ≤ a

instance : DecidableRel intDesc :=
  fun a b => inferInstanceAs (Decidable (b ≤ a))

instance : IsTotal Int intDesc := ⟨fun a b => le_total b a⟩

instance : IsTrans Int intDesc := ⟨fun _ _ _ h1 h2 => le_trans h2 h1⟩

/-- `CardRepository._tiers_from_cards` (bot.py lines 90-92):
`sorted({c.weight for c in cards if c.weight > 0}, reverse=True)` mapped to
tiers labelled by the weight. -/
def tiersFromCards (cards : List Card) : List Tier :=
  let ws := (((cards.filter (fun c => 0 < c.weight)).map Card.weight).dedup).insertionSort intDesc
  ws.map (fun w => { name := "Poids >= " ++ toString w, min_weight := w })

/-- The repository's mutable state: `self._cards` and `self._tiers`. -/
structure RepoState where
  cards : List Card
  tiers : List Tier
deriving DecidableEq

/-- Outcome of `load_json(cards_path)`: `err` stands for a raised exception
(missing file or malformed JSON); `ok` carries the coerced card records. -/
inductive CardsFile where
  | err : CardsFile
  | ok : List Card → CardsFile

/-- Outcome of the tiers-file branch of `reload`: the file may be absent
(`os.path.exists` false), present but malformed (`load_json` raises),
present and parsed but not a JSON list, or a parsed list of tier records. -/
inductive TiersFile where
  | absent : TiersFile
  | malformed : TiersFile
  | notList : TiersFile
  | ok : List Tier → TiersFile

/-- `CardRepository.reload` (bot.py lines 77-88), with the mutation order of
the source: `self._cards` is assigned before the tiers file is read, so a
failure while reading the tiers file leaves the new cards with the old
tiers. The `Bool` is `true` iff no exception escaped. -/
def reload (st : RepoState) (cf : CardsFile) (tf : TiersFile) : RepoState × Bool :=
  match cf with
  | .err => (st, false)
  | .ok cs =>
    let st1 : RepoState := { st with cards := cs }
    match tf with
    | .malformed => (st1, false)
    | _ =>
      let tiers : List Tier :=
        match tf with
        | .ok ts => ts
        | _ => []
      let tiers := if tiers.isEmpty then tiersFromCards cs else tiers
      ({ st1 with tiers := sortTiersDesc tiers }, true)

/-- Accumulated length measure of the `/lootrate` chunking loop:
`current_len` equals the sum of `len(line) + 1` over the current chunk. -/
def lineSum (c : List String) : Nat := (c.map (fun l => l.length + 1)).sum

/-- Loop state of the chunking code in `lootrate` (bot.py lines 222-224). -/
structure ChunkState where
  chunks : List (List String)
  current : List String
  currentLen : Nat
deriving DecidableEq

/-- One iteration of the chunking loop (bot.py lines 225-233). -/
def chunkStep (st : ChunkState) (line : String) : ChunkState :=
  let lineLen := line.length + 1
  if st.current ≠ [] ∧ 1024 < st.currentLen + lineLen then
    { chunks := st.chunks ++ [st.current], current := [line], currentLen := lineLen }
  else
    { chunks := st.chunks, current := st.current ++ [line],
      currentLen := st.currentLen + lineLen }

/-- The full chunking procedure of `lootrate` (bot.py lines 222-235),
including the final flush of a nonempty `current`. -/
def fieldChunks (lines : List String) : List (List String) :=
  let st := lines.foldl chunkStep { chunks := [], current := [], currentLen := 0 }
  if st.current ≠ [] then st.chunks ++ [st.current] else st.chunks

/-- Model of Python's `"\n".join(chunk)` (bot.py line 239). -/
def joinLines : List String → String
  | [] => ""
  | [l] => l
  | l :: rest => l ++ "\n" ++ joinLines rest

/-- Python `dict` membership test `k in m`. -/
def dictMem {β : Type} (m : List (String × β)) (k : String) : Bool :=
  m.any (fun p => p.1 == k)

/-- Python `dict` lookup `m.get(k)` / `m[k]`. -/
def dictGet {β : Type} (m : List (String × β)) (k : String) : Option β :=
  (m.find? (fun p => p.1 == k)).map Prod.snd

/-- Python `dict` assignment `m[k] = v`: overwrite in place if the key is
present (keys stay unique, insertion order kept), else append. -/
def dictInsert {β : Type} (m : List (String × β)) (k : String) (v : β) :
    List (String × β) :=
  if dictMem m k then m.map (fun p => if p.1 == k then (k, v) else p)
  else m ++ [(k, v)]

/-- Key list of a modelled dict (`m.keys()`). -/
def dictKeys {β : Type} (m : List (String × β)) : List String :=
  m.map Prod.fst

/-- Sum of the values of a modelled dict of integers. -/
def dictValSum (m : List (String × Int)) : Int :=
  (m.map Prod.snd).sum

/-- The `sums` accumulation loop of `summary_by_tier` (bot.py lines 121-124):
`sums[tier] = sums.get(tier, 0) + max(0, c.weight)`. -/
def buildSums (cards : List Card) (tiers : List Tier) : List (String × Int) :=
  cards.foldl
    (fun sums c =>
      let tier := tierForCard tiers c
      dictInsert sums tier ((dictGet sums tier).getD 0 + max 0 c.weight))
    []

/-- First reordering loop of `summary_by_tier` (bot.py lines 132-135):
`for t in self._tiers: if t.name in out: ordered[t.name] = out[t.name]`. -/
def orderedPhase (out : List (String × Int × ℚ)) (tiers : List Tier) :
    List (String × Int × ℚ) :=
  tiers.foldl
    (fun od t =>
      match dictGet out t.name with
      | some v => dictInsert od t.name v
      | none => od)
    []

/-- Second reordering loop of `summary_by_tier` (bot.py lines 137-139):
`for k, v in out.items(): if k not in ordered: ordered[k] = v`. -/
def addMissing (entries : List (String × Int × ℚ))
    (od : List (String × Int × ℚ)) : List (String × Int × ℚ) :=
  entries.foldl
    (fun od p => if dictMem od p.1 then od else dictInsert od p.1 p.2)
    od

/-- The `out` dict of `summary_by_tier` (bot.py lines 126-129): per-tier
weight sum paired with its percentage of the total. -/
def outPhase (cards : List Card) (tiers : List Tier) :
    List (String × Int × ℚ) :=
  let total := totalWeight cards
  (buildSums cards tiers).map (fun p =>
    (p.1, p.2, if 0 < total then (p.2 : ℚ) / (total : ℚ) * 100 else 0))

/-- `CardRepository.summary_by_tier` (bot.py lines 116-140): per-tier weight
sums and percentages, reordered to canonical tier order first, then any
remaining labels in first-seen order. -/
def summaryByTier (cards : List Card) (tiers : List Tier) :
    List (String × Int × ℚ) :=
  let out := outPhase cards tiers
  addMissing out (orderedPhase out tiers)

/-! ### Helper lemmas: the three lookup loops are first-match searches -/

theorem findByKey_eq (q : String) :
    ∀ cards, findByKey q cards = cards.find? (fun c => normalize c.key == q)
  | [] => rfl
  | c :: rest => by
    simp only [findByKey]
    cases h : (normalize c.key == q)
    · simp [h, findByKey_eq q rest]
    · simp [h]

theorem findByName_eq (q : String) :
    ∀ cards, findByName q cards = cards.find? (fun c => normalize c.name == q)
  | [] => rfl
  | c :: rest => by
    simp only [findByName]
    cases h : (normalize c.name == q)
    · simp [h, findByName_eq q rest]
    · simp [h]

theorem findBySub_eq (q : String) :
    ∀ cards, findBySub q cards
      = cards.find? (fun c => hasSub q.toList (normalize c.name).toList)
  | [] => rfl
  | c :: rest => by
    by_cases h : hasSub q.toList (normalize c.name).toList = true
    · simp only [findBySub, if_pos h, List.find?_cons, h]
      simp
    · have h' : hasSub q.toList (normalize c.name).toList = false := by
        cases hb : hasSub q.toList (normalize c.name).toList
        · rfl
        · exact absurd hb h
      simp only [findBySub, if_neg h, List.find?_cons, h', findBySub_eq q rest]
      simp

/-- C5: `find_card` normalizes the query and applies the three-stage
fallback (exact key, exact name, substring of name), each stage scanning the
loaded cards in order and returning its first match; it returns no match when
the query normalizes to the empty string or no stage matches. Stated as a
refinement: the looped code equals the `List.find?`-based restatement of the
spec, and the empty-normalization case returns `none`. -/
theorem c5_find_card (cards : List Card) (q : String) :
    findCard cards q = findCardSpec cards q ∧
    (normalize q = "" → findCard cards q = none) := by
  constructor
  · by_cases h : normalize q = ""
    · simp [findCard, findCardSpec, h]
    · simp only [findCard, findCardSpec, if_neg h, beq_iff_eq, h, if_false,
        findByKey_eq, findByName_eq, findBySub_eq]
      cases hk : cards.find? (fun c => normalize c.key == normalize q) <;>
        cases hn : cards.find? (fun c => normalize c.name == normalize q) <;>
          simp [Option.orElse]
  · intro h
    simp [findCard, h]

/-- C5 witness: concrete instantiation of `c5_find_card` at a two-card list
and a whitespace-only query. -/
theorem c5_find_card_witness :
    findCard [⟨"a", "Alpha", "", "", 70⟩] "  " =
      findCardSpec [⟨"a", "Alpha", "", "", 70⟩] "  " ∧
    normalize "  " = "" ∧
    findCard [⟨"a", "Alpha", "", "", 70⟩] "  " = none :=
  ⟨(c5_find_card [⟨"a", "Alpha", "", "", 70⟩] "  ").1, by decide,
   (c5_find_card [⟨"a", "Alpha", "", "", 70⟩] "  ").2 (by decide)⟩

/-! ### C2: atomicity of reload -/

/-- Prior repository state for the C2 counterexample. -/
def c2old : RepoState :=
  ⟨[⟨"old", "Old", "", "", 10⟩], [⟨"T", 5⟩]⟩

/-- Replacement card list for the C2 counterexample. -/
def c2newCards : List Card := [⟨"new", "New", "", "", 20⟩]

/-- C2 counterexample: when the cards file parses but the tiers file exists
and is malformed JSON, `reload` fails *after* having replaced the card list,
so the repository is left in a partial state: new cards, old tiers. This
refutes the claim that every failing `reload` leaves both lists untouched. -/
theorem c2_counterexample :
    (reload c2old (CardsFile.ok c2newCards) TiersFile.malformed).2 = false ∧
    (reload c2old (CardsFile.ok c2newCards) TiersFile.malformed).1.cards ≠
      c2old.cards ∧
    (reload c2old (CardsFile.ok c2newCards) TiersFile.malformed).1.tiers =
      c2old.tiers := by
  refine ⟨rfl, ?_, rfl⟩
  decide

/-- C2 amended: `reload` is atomic only for cards-file failures — a missing
or malformed cards file leaves both lists exactly as they were; but when the
cards file parses and the tiers file is present and malformed, the call fails
with the card list already replaced and only the tier list retained. -/
theorem c2_reload_amended :
    (∀ (st : RepoState) (tf : TiersFile),
      reload st CardsFile.err tf = (st, false)) ∧
    (∀ (st : RepoState) (cs : List Card),
      reload st (CardsFile.ok cs) TiersFile.malformed
        = ({ cards := cs, tiers := st.tiers }, false)) :=
  ⟨fun _ _ => rfl, fun _ _ => rfl⟩

/-! ### C9: key lookup robustness -/

/-- C9 counterexample: a loaded card whose `key` is the empty string. Calling
`find_card` on that card's key (the empty string, no padding) returns no
match, not the card, because the query normalizes to the empty string. -/
theorem c9_counterexample :
    (⟨"", "Alpha", "", "", 70⟩ : Card).key = "" ∧
    findCard [⟨"", "Alpha", "", "", 70⟩] "" = none := by
  constructor
  · rfl
  · decide

/-- C9 amended: `find_card("")` returns no match; and for every loaded card
whose key does not normalize to the empty string, any query that normalizes
to the card's normalized key (any case change or whitespace padding) returns
a card whose normalized key equals the normalized query. -/
theorem c9_find_key_amended (cards : List Card) (c : Card) (q : String)
    (hc : c ∈ cards) (hk : normalize c.key ≠ "")
    (hq : normalize q = normalize c.key) :
    findCard cards "" = none ∧
    ∃ d, findCard cards q = some d ∧ normalize d.key = normalize q := by
  have hq0 : ¬ normalize q = "" := by rw [hq]; exact hk
  constructor
  · simp [findCard, normalize, stripChars, lowerChars, collapseChars]
  · have hex : ∃ x, x ∈ cards ∧ (normalize x.key == normalize q) = true :=
      ⟨c, hc, by simp [hq]⟩
    have hsome : (cards.find? (fun c' => normalize c'.key == normalize q)).isSome :=
      List.find?_isSome.mpr hex
    obtain ⟨d, hd⟩ := Option.isSome_iff_exists.mp hsome
    have hdk : normalize d.key = normalize q := by
      have := List.find?_some hd
      simpa using this
    refine ⟨d, ?_, hdk⟩
    simp only [findCard, findByKey_eq, beq_iff_eq, hq0, if_false, hd]

/-- C9 witness: concrete instantiation of `c9_find_key_amended` with a card
keyed "KeyA" and the padded, case-changed query "  kEyA ". -/
theorem c9_find_key_witness :
    (⟨"KeyA", "Alpha", "", "", 5⟩ : Card) ∈ [(⟨"KeyA", "Alpha", "", "", 5⟩ : Card)] ∧
    normalize (Card.key ⟨"KeyA", "Alpha", "", "", 5⟩) ≠ "" ∧
    normalize "  kEyA " = normalize (Card.key ⟨"KeyA", "Alpha", "", "", 5⟩) ∧
    (findCard [⟨"KeyA", "Alpha", "", "", 5⟩] "" = none ∧
     ∃ d, findCard [⟨"KeyA", "Alpha", "", "", 5⟩] "  kEyA " = some d ∧
       normalize d.key = normalize "  kEyA ") :=
  ⟨List.mem_singleton_self _, by decide, by decide,
   c9_find_key_amended [⟨"KeyA", "Alpha", "", "", 5⟩] ⟨"KeyA", "Alpha", "", "", 5⟩
     "  kEyA " (List.mem_singleton_self _) (by decide) (by decide)⟩

/-! ### C1: probabilities sum to 1 -/

theorem sum_div_cast (l : List Int) (T : ℚ) :
    (l.map (fun (w : Int) => (w : ℚ) / T)).sum = ((l.sum : ℚ)) / T := by
  induction l with
  | nil => simp
  | cons w l ih =>
    rw [List.map_cons, List.sum_cons, List.sum_cons, ih, Int.cast_add, add_div]

theorem weights_sum_of_nonneg (cards : List Card)
    (h : ∀ c ∈ cards, 0 ≤ c.weight) :
    (cards.map Card.weight).sum = totalWeight cards := by
  induction cards with
  | nil => rfl
  | cons c cs ih =>
    simp only [totalWeight, List.map_cons, List.sum_cons] at *
    rw [max_eq_right (h c (List.mem_cons_self c cs)),
      ih (fun x hx => h x (List.mem_cons_of_mem c hx))]

/-- Card list with a negative weight for the C1 counterexample. -/
def c1cards : List Card :=
  [⟨"a", "A", "", "", 2⟩, ⟨"b", "B", "", "", -1⟩]

/-- C1 counterexample: `total_weight` clamps negative weights to 0 but
`probability` divides the raw weight, so a loaded list containing a negative
weight has total weight 2 > 0 while the probabilities sum to 1/2, not 1. -/
theorem c1_counterexample :
    0 < totalWeight c1cards ∧
    (c1cards.map (probability c1cards)).sum ≠ 1 := by
  constructor
  · decide
  · have h2 : totalWeight c1cards = 2 := by decide
    simp only [c1cards] at h2 ⊢
    simp only [List.map_cons, List.map_nil, List.sum_cons, List.sum_nil,
      probability, h2]
    norm_num

/-- C1 amended: for every loaded card list all of whose weights are
non-negative (the data model's stated domain) and whose total weight is
strictly positive, the probabilities of the loaded cards sum to exactly 1
(exact rational arithmetic standing for the float computation). -/
theorem c1_sum_prob_amended (cards : List Card)
    (hw : ∀ c ∈ cards, 0 ≤ c.weight) (ht : 0 < totalWeight cards) :
    (cards.map (probability cards)).sum = 1 := by
  have hmap : cards.map (probability cards)
      = (cards.map Card.weight).map
          (fun (w : Int) => (w : ℚ) / (totalWeight cards : ℚ)) := by
    rw [List.map_map]
    exact List.map_congr_left (fun c _ => by simp [probability, ht])
  rw [hmap, sum_div_cast, weights_sum_of_nonneg cards hw]
  have hne : (totalWeight cards : ℚ) ≠ 0 := by exact_mod_cast ht.ne'
  exact div_self hne

/-- C1 witness: concrete instantiation of `c1_sum_prob_amended` on a
two-card list of weights 70 and 30. -/
theorem c1_sum_prob_witness :
    (∀ c ∈ [(⟨"a", "A", "", "", 70⟩ : Card), ⟨"b", "B", "", "", 30⟩], 0 ≤ c.weight) ∧
    0 < totalWeight [(⟨"a", "A", "", "", 70⟩ : Card), ⟨"b", "B", "", "", 30⟩] ∧
    ([(⟨"a", "A", "", "", 70⟩ : Card), ⟨"b", "B", "", "", 30⟩].map
      (probability [(⟨"a", "A", "", "", 70⟩ : Card), ⟨"b", "B", "", "", 30⟩])).sum = 1 :=
  ⟨by decide, by decide,
   c1_sum_prob_amended [⟨"a", "A", "", "", 70⟩, ⟨"b", "B", "", "", 30⟩]
     (by decide) (by decide)⟩

/-! ### C4: tier classification scans the stably sorted tier list -/

theorem tierForCard_eq_spec : ∀ (ts : List Tier) (c : Card),
    tierForCard ts c = tierForCardSpec ts c
  | [], _ => rfl
  | t :: rest, c => by
    by_cases h : t.min_weight ≤ c.weight
    · simp [tierForCard, tierForCardSpec, h]
    · simp only [tierForCard, if_neg h]
      rw [tierForCard_eq_spec rest c]
      simp [tierForCardSpec, h]

theorem filter_orderedInsert_pos (w : Int) (a : Tier) (ha : a.min_weight = w) :
    ∀ l, (List.orderedInsert tierOrder a l).filter (fun t => t.min_weight == w)
      = a :: l.filter (fun t => t.min_weight == w)
  | [] => by simp [ha]
  | b :: l => by
    by_cases h : tierOrder a b
    · simp only [List.orderedInsert, if_pos h]
      simp [List.filter_cons, ha]
    · have hb : (b.min_weight == w) = false := by
        have hlt : a.min_weight < b.min_weight := lt_of_not_le h
        have : b.min_weight ≠ w := by rw [← ha]; exact (ne_of_gt hlt)
        simpa using this
      simp only [List.orderedInsert, if_neg h, List.filter_cons, hb,
        Bool.false_eq_true, if_false, filter_orderedInsert_pos w a ha l]

theorem filter_orderedInsert_neg (w : Int) (a : Tier) (ha : ¬ a.min_weight = w) :
    ∀ l, (List.orderedInsert tierOrder a l).filter (fun t => t.min_weight == w)
      = l.filter (fun t => t.min_weight == w)
  | [] => by simp [ha]
  | b :: l => by
    have ha' : (a.min_weight == w) = false := by simpa using ha
    by_cases h : tierOrder a b
    · simp only [List.orderedInsert, if_pos h, List.filter_cons, ha',
        Bool.false_eq_true, if_false]
    · simp only [List.orderedInsert, if_neg h, List.filter_cons,
        filter_orderedInsert_neg w a ha l]

theorem sortTiersDesc_stable (ts : List Tier) (w : Int) :
    (sortTiersDesc ts).filter (fun t => t.min_weight == w)
      = ts.filter (fun t => t.min_weight == w) := by
  induction ts with
  | nil => rfl
  | cons a l ih =>
    show (List.orderedInsert tierOrder a (List.insertionSort tierOrder l)).filter _ = _
    by_cases ha : a.min_weight = w
    · rw [filter_orderedInsert_pos w a ha]
      rw [show List.insertionSort tierOrder l = sortTiersDesc l from rfl, ih]
      simp [List.filter_cons, ha]
    · rw [filter_orderedInsert_neg w a ha]
      rw [show List.insertionSort tierOrder l = sortTiersDesc l from rfl, ih]
      have ha' : (a.min_weight == w) = false := by simpa using ha
      simp [List.filter_cons, ha']

/-- C4: over any loaded tier list, `reload` stores the stable descending
sort of the tiers (sorted by `min_weight`, a permutation of the input in
which ties keep their original relative order — stability stated as filter
invariance per threshold value), and `tier_for_card` returns the name of the
first stored tier whose `min_weight ≤ card.weight`, else the sentinel
"Inconnu" — stated via the `List.find?` restatement `tierForCardSpec`. -/
theorem c4_tier_scan (ts : List Tier) (c : Card) :
    tierForCard (sortTiersDesc ts) c = tierForCardSpec (sortTiersDesc ts) c ∧
    List.Sorted tierOrder (sortTiersDesc ts) ∧
    List.Perm (sortTiersDesc ts) ts ∧
    ∀ w : Int, (sortTiersDesc ts).filter (fun t => t.min_weight == w)
      = ts.filter (fun t => t.min_weight == w) :=
  ⟨tierForCard_eq_spec _ c, List.sorted_insertionSort tierOrder ts,
   List.perm_insertionSort tierOrder ts, fun w => sortTiersDesc_stable ts w⟩

/-! ### C8: tier classification is monotone in the weight -/

theorem matchedTier_mem : ∀ (ts : List Tier) (c : Card) (t : Tier),
    matchedTier ts c = some t → t ∈ ts
  | [], _, _, h => by simp [matchedTier] at h
  | u :: rest, c, t, h => by
    by_cases hu : u.min_weight ≤ c.weight
    · simp only [matchedTier, if_pos hu, Option.some.injEq] at h
      exact h ▸ List.mem_cons_self u rest
    · simp only [matchedTier, if_neg hu] at h
      exact List.mem_cons_of_mem u (matchedTier_mem rest c t h)

theorem tierForCard_eq_matched : ∀ (ts : List Tier) (c : Card),
    tierForCard ts c = ((matchedTier ts c).map Tier.name).getD "Inconnu"
  | [], _ => rfl
  | u :: rest, c => by
    by_cases hu : u.min_weight ≤ c.weight <;>
      simp [tierForCard, matchedTier, hu, tierForCard_eq_matched rest c]

theorem matched_mono : ∀ (s : List Tier), List.Sorted tierOrder s →
    ∀ (a b : Card), b.weight ≤ a.weight →
    ∀ tb, matchedTier s b = some tb →
      ∃ ta, matchedTier s a = some ta ∧ tb.min_weight ≤ ta.min_weight
  | [], _, _, _, _, tb, h => by simp [matchedTier] at h
  | u :: rest, hs, a, b, hab, tb, h => by
    have hparts := List.sorted_cons.mp hs
    by_cases hub : u.min_weight ≤ b.weight
    · simp only [matchedTier, if_pos hub, Option.some.injEq] at h
      have hua : u.min_weight ≤ a.weight := le_trans hub hab
      exact ⟨u, by simp [matchedTier, if_pos hua], h ▸ le_refl _⟩
    · simp only [matchedTier, if_neg hub] at h
      by_cases hua : u.min_weight ≤ a.weight
      · refine ⟨u, by simp [matchedTier, if_pos hua], ?_⟩
        exact hparts.1 tb (matchedTier_mem rest b tb h)
      · obtain ⟨ta, hta, hle⟩ := matched_mono rest hparts.2 a b hab tb h
        exact ⟨ta, by simp [matchedTier, if_neg hua, hta], hle⟩

/-- C8: over the same loaded (descending-sorted) tier list, if
`b.weight ≤ a.weight` then whenever `b` matches a tier, `a` matches a tier
of a threshold at least as large; `a` falls to the "Inconnu" sentinel (no
matched tier) only when `b` does too; and `tier_for_card` is exactly the
name of the matched tier or the sentinel. -/
theorem c8_tier_monotonic (ts : List Tier) (a b : Card)
    (hab : b.weight ≤ a.weight) :
    (∀ tb, matchedTier (sortTiersDesc ts) b = some tb →
       ∃ ta, matchedTier (sortTiersDesc ts) a = some ta ∧
         tb.min_weight ≤ ta.min_weight) ∧
    (matchedTier (sortTiersDesc ts) a = none →
       matchedTier (sortTiersDesc ts) b = none) ∧
    tierForCard (sortTiersDesc ts) a
      = ((matchedTier (sortTiersDesc ts) a).map Tier.name).getD "Inconnu" ∧
    tierForCard (sortTiersDesc ts) b
      = ((matchedTier (sortTiersDesc ts) b).map Tier.name).getD "Inconnu" := by
  have hsorted : List.Sorted tierOrder (sortTiersDesc ts) :=
    List.sorted_insertionSort tierOrder ts
  refine ⟨matched_mono _ hsorted a b hab, ?_,
    tierForCard_eq_matched _ a, tierForCard_eq_matched _ b⟩
  intro hnone
  cases hb : matchedTier (sortTiersDesc ts) b with
  | none => rfl
  | some tb =>
    obtain ⟨ta, hta, _⟩ := matched_mono _ hsorted a b hab tb hb
    rw [hta] at hnone
    cases hnone

/-- C8 witness: concrete instantiation of `c8_tier_monotonic` on a two-tier
list with card weights 60 and 20. -/
theorem c8_tier_monotonic_witness :
    (Card.weight ⟨"b", "B", "", "", 20⟩ ≤ Card.weight ⟨"a", "A", "", "", 60⟩) ∧
    (∀ tb, matchedTier (sortTiersDesc [⟨"High", 50⟩, ⟨"Low", 10⟩])
        ⟨"b", "B", "", "", 20⟩ = some tb →
      ∃ ta, matchedTier (sortTiersDesc [⟨"High", 50⟩, ⟨"Low", 10⟩])
          ⟨"a", "A", "", "", 60⟩ = some ta ∧ tb.min_weight ≤ ta.min_weight) :=
  ⟨by decide,
   (c8_tier_monotonic [⟨"High", 50⟩, ⟨"Low", 10⟩] ⟨"a", "A", "", "", 60⟩
     ⟨"b", "B", "", "", 20⟩ (by decide)).1⟩

/-! ### C10: synthesized tiers classify each card by its own weight -/

theorem tiersFromCards_sorted (cards : List Card) :
    List.Sorted tierOrder (tiersFromCards cards) := by
  simp only [tiersFromCards]
  refine List.pairwise_map.mpr ?_
  exact List.sorted_insertionSort intDesc _

theorem sortTiersDesc_of_sorted {ts : List Tier}
    (h : List.Sorted tierOrder ts) : sortTiersDesc ts = ts :=
  List.Sorted.insertionSort_eq h

theorem dedupSort_strict (l : List Int) :
    List.Pairwise (fun a b => b < a) (l.dedup.insertionSort intDesc) := by
  have hnd : (l.dedup.insertionSort intDesc).Nodup :=
    ((List.perm_insertionSort intDesc l.dedup).nodup_iff).mpr (List.nodup_dedup l)
  have hs : List.Pairwise intDesc (l.dedup.insertionSort intDesc) :=
    List.sorted_insertionSort intDesc l.dedup
  exact (hs.and hnd).imp (fun h => lt_of_le_of_ne h.1 (Ne.symm h.2))

theorem tierScan_mem (c : Card) :
    ∀ ws : List Int, List.Pairwise (fun a b => b < a) ws → c.weight ∈ ws →
      tierForCard (ws.map (fun w =>
        ({ name := "Poids >= " ++ toString w, min_weight := w } : Tier))) c
        = "Poids >= " ++ toString c.weight
  | [], _, hm => by simp at hm
  | w0 :: ws, hp, hm => by
    by_cases h0 : c.weight = w0
    · simp [List.map_cons, tierForCard, h0]
    · have hmem : c.weight ∈ ws := by
        cases List.mem_cons.mp hm with
        | inl h => exact absurd h h0
        | inr h => exact h
      have hlt : c.weight < w0 := (List.pairwise_cons.mp hp).1 c.weight hmem
      have hnot : ¬ (w0 ≤ c.weight) := not_le.mpr hlt
      simp only [List.map_cons, tierForCard, if_neg hnot]
      exact tierScan_mem c ws (List.pairwise_cons.mp hp).2 hmem

theorem tierScan_neg (c : Card) (hc : c.weight ≤ 0) :
    ∀ ws : List Int, (∀ w ∈ ws, 0 < w) →
      tierForCard (ws.map (fun w =>
        ({ name := "Poids >= " ++ toString w, min_weight := w } : Tier))) c
        = "Inconnu"
  | [], _ => rfl
  | w0 :: ws, hpos => by
    have hlt : c.weight < w0 :=
      lt_of_le_of_lt hc (hpos w0 (List.mem_cons_self w0 ws))
    simp only [List.map_cons, tierForCard, if_neg (not_le.mpr hlt)]
    exact tierScan_neg c hc ws (fun w hw => hpos w (List.mem_cons_of_mem _ hw))

theorem mem_weights (cards : List Card) (c : Card) (hc : c ∈ cards)
    (hw : 0 < c.weight) :
    c.weight ∈ (((cards.filter (fun c => 0 < c.weight)).map Card.weight).dedup).insertionSort intDesc := by
  rw [List.mem_insertionSort, List.mem_dedup, List.mem_map]
  exact ⟨c, List.mem_filter.mpr ⟨hc, by simpa using hw⟩, rfl⟩

theorem weights_pos (cards : List Card) :
    ∀ w ∈ (((cards.filter (fun c => 0 < c.weight)).map Card.weight).dedup).insertionSort intDesc,
      0 < w := by
  intro w hw
  rw [List.mem_insertionSort, List.mem_dedup, List.mem_map] at hw
  obtain ⟨c, hcf, rfl⟩ := hw
  simpa using (List.mem_filter.mp hcf).2

/-- C10: with the tier list synthesized from the cards (tiers file absent,
empty, or not a list) and then sorted by `reload`, every loaded card with
positive weight is classified into the tier labelled by its own weight, and
every loaded card with non-positive weight gets the "Inconnu" sentinel. -/
theorem c10_synth_tier (cards : List Card) (c : Card) (hc : c ∈ cards) :
    (0 < c.weight →
      tierForCard (sortTiersDesc (tiersFromCards cards)) c
        = "Poids >= " ++ toString c.weight) ∧
    (c.weight ≤ 0 →
      tierForCard (sortTiersDesc (tiersFromCards cards)) c = "Inconnu") := by
  rw [sortTiersDesc_of_sorted (tiersFromCards_sorted cards)]
  constructor
  · intro hw
    simp only [tiersFromCards]
    exact tierScan_mem c _ (dedupSort_strict _) (mem_weights cards c hc hw)
  · intro hw
    simp only [tiersFromCards]
    exact tierScan_neg c hw _ (weights_pos cards)

/-- C10 witness: concrete instantiation of `c10_synth_tier` on a two-card
list with one positive-weight and one zero-weight card. -/
theorem c10_synth_tier_witness :
    ((⟨"a", "A", "", "", 70⟩ : Card) ∈
      [(⟨"a", "A", "", "", 70⟩ : Card), ⟨"z", "Z", "", "", 0⟩]) ∧
    (0 < (70 : Int) →
      tierForCard (sortTiersDesc (tiersFromCards
        [(⟨"a", "A", "", "", 70⟩ : Card), ⟨"z", "Z", "", "", 0⟩]))
        ⟨"a", "A", "", "", 70⟩ = "Poids >= " ++ toString (70 : Int)) :=
  ⟨by decide,
   fun _ => (c10_synth_tier [⟨"a", "A", "", "", 70⟩, ⟨"z", "Z", "", "", 0⟩]
     ⟨"a", "A", "", "", 70⟩ (by decide)).1 (by decide)⟩

/-! ### C3: lootrate chunking -/

theorem joinLines_length : ∀ (ch : List String), ch ≠ [] →
    (joinLines ch).length + 1 = lineSum ch
  | [], h => absurd rfl h
  | [l], _ => by simp [joinLines, lineSum]
  | l :: l2 :: rest, _ => by
    have ih := joinLines_length (l2 :: rest) (by simp)
    have h1 : ("\n").length = 1 := rfl
    simp only [joinLines, lineSum, List.map_cons, List.sum_cons,
      String.length_append] at *
    omega

theorem chunkFold_join : ∀ (lines : List String) (st : ChunkState),
    (lines.foldl chunkStep st).chunks.flatten ++ (lines.foldl chunkStep st).current
      = st.chunks.flatten ++ st.current ++ lines
  | [], st => by simp
  | line :: rest, st => by
    rw [List.foldl_cons, chunkFold_join rest (chunkStep st line)]
    by_cases h : st.current ≠ [] ∧ 1024 < st.currentLen + (line.length + 1)
    · simp only [chunkStep, if_pos h]
      simp [List.flatten_append, List.append_assoc]
    · simp only [chunkStep, if_neg h]
      simp [List.append_assoc]

theorem chunkFold_bound : ∀ (lines : List String) (st : ChunkState),
    (∀ l ∈ lines, l.length ≤ 1024) →
    st.currentLen = lineSum st.current →
    (st.current ≠ [] → st.currentLen ≤ 1025) →
    (∀ ch ∈ st.chunks, ch ≠ [] ∧ lineSum ch ≤ 1025) →
    ((lines.foldl chunkStep st).currentLen
        = lineSum (lines.foldl chunkStep st).current) ∧
    ((lines.foldl chunkStep st).current ≠ []
        → (lines.foldl chunkStep st).currentLen ≤ 1025) ∧
    (∀ ch ∈ (lines.foldl chunkStep st).chunks, ch ≠ [] ∧ lineSum ch ≤ 1025)
  | [], _, _, h1, h2, h3 => ⟨h1, h2, h3⟩
  | line :: rest, st, hl, h1, h2, h3 => by
    have hline : line.length ≤ 1024 := hl line (List.mem_cons_self line rest)
    rw [List.foldl_cons]
    refine chunkFold_bound rest (chunkStep st line)
      (fun l hl' => hl l (List.mem_cons_of_mem _ hl')) ?_ ?_ ?_
    · by_cases h : st.current ≠ [] ∧ 1024 < st.currentLen + (line.length + 1)
      · simp only [chunkStep]
        rw [if_pos h]
        simp [lineSum]
      · simp only [chunkStep]
        rw [if_neg h]
        simp [lineSum, List.map_append, List.sum_append, h1]
    · by_cases h : st.current ≠ [] ∧ 1024 < st.currentLen + (line.length + 1)
      · simp only [chunkStep]
        rw [if_pos h]
        intro _
        show line.length + 1 ≤ 1025
        omega
      · simp only [chunkStep]
        rw [if_neg h]
        intro _
        show st.currentLen + (line.length + 1) ≤ 1025
        push_neg at h
        by_cases hcur : st.current = []
        · have h0 : st.currentLen = 0 := by rw [h1, hcur]; rfl
          omega
        · have := h hcur
          omega
    · by_cases h : st.current ≠ [] ∧ 1024 < st.currentLen + (line.length + 1)
      · simp only [chunkStep]
        rw [if_pos h]
        intro ch hch
        cases List.mem_append.mp hch with
        | inl hin => exact h3 ch hin
        | inr hin =>
          have hcur : ch = st.current := by simpa using hin
          subst hcur
          exact ⟨h.1, by rw [← h1]; exact h2 h.1⟩
      · simp only [chunkStep]
        rw [if_neg h]
        exact h3

/-- Oversized single report line for the C3 counterexample. -/
def c3line : String := String.mk (List.replicate 1025 'a')

/-- C3 counterexample: a single line longer than 1024 characters is placed
alone in a chunk regardless of its length (the loop only starts a new chunk
when `current` is nonempty), so the joined chunk exceeds 1024 characters.
This refutes the bound as stated for arbitrary per-card lines. -/
theorem c3_counterexample :
    fieldChunks [c3line] = [[c3line]] ∧
    1024 < (joinLines [c3line]).length := by
  constructor
  · rfl
  · show 1024 < c3line.length
    have hlen : c3line.length = 1025 := by
      show (List.replicate 1025 'a').length = 1025
      exact List.length_replicate 1025 'a'
    omega

/-- C3 amended: when every report line is at most 1024 characters long, the
greedy chunking produces chunks whose newline-joins are each at most 1024
characters; and unconditionally (for every input, over-long lines included),
the concatenation of the chunks in order is exactly the input line list
(every line once, in order). -/
theorem c3_chunks_amended (lines : List String) :
    ((∀ l ∈ lines, l.length ≤ 1024) →
      ∀ ch ∈ fieldChunks lines, (joinLines ch).length ≤ 1024) ∧
    (fieldChunks lines).flatten = lines := by
  have hj := chunkFold_join lines ⟨[], [], 0⟩
  simp only [List.flatten_nil, List.nil_append] at hj
  constructor
  · intro hl ch hch
    have hb := chunkFold_bound lines ⟨[], [], 0⟩ hl rfl
      (fun h => absurd rfl h) (fun ch h => by simp at h)
    have hch' : ch ≠ [] ∧ lineSum ch ≤ 1025 := by
      simp only [fieldChunks] at hch
      by_cases hc : (lines.foldl chunkStep ⟨[], [], 0⟩).current ≠ []
      · rw [if_pos hc] at hch
        cases List.mem_append.mp hch with
        | inl hin => exact hb.2.2 ch hin
        | inr hin =>
          have he : ch = (lines.foldl chunkStep ⟨[], [], 0⟩).current := by
            simpa using hin
          refine ⟨he ▸ hc, ?_⟩
          rw [he, ← hb.1]
          exact hb.2.1 hc
      · rw [if_neg hc] at hch
        exact hb.2.2 ch hch
    have hlen := joinLines_length ch hch'.1
    omega
  · simp only [fieldChunks]
    by_cases hc : (lines.foldl chunkStep ⟨[], [], 0⟩).current ≠ []
    · rw [if_pos hc, List.flatten_append]
      simpa using hj
    · rw [if_neg hc]
      push_neg at hc
      rw [hc] at hj
      simpa using hj

/-- C3 witness: concrete instantiation of `c3_chunks_amended` — the bound on
two short lines, and the unconditional concatenation property on an input
containing the over-long line. -/
theorem c3_chunks_witness :
    (∀ l ∈ ["ab", "cd"], l.length ≤ 1024) ∧
    (∀ ch ∈ fieldChunks ["ab", "cd"], (joinLines ch).length ≤ 1024) ∧
    (fieldChunks [c3line]).flatten = [c3line] :=
  ⟨by decide, (c3_chunks_amended ["ab", "cd"]).1 (by decide),
   (c3_chunks_amended [c3line]).2⟩

/-! ### C6: synthesized tier list -/

theorem tiersFromCards_mem (cs : List Card) (t : Tier) :
    t ∈ tiersFromCards cs ↔
      0 < t.min_weight ∧ (∃ c ∈ cs, c.weight = t.min_weight) ∧
      t.name = "Poids >= " ++ toString t.min_weight := by
  simp only [tiersFromCards, List.mem_map, List.mem_insertionSort,
    List.mem_dedup, List.mem_filter]
  constructor
  · rintro ⟨w, ⟨c, ⟨hc, hpos⟩, hcw⟩, rfl⟩
    exact ⟨by rw [← hcw]; simpa using hpos, ⟨c, hc, hcw⟩, rfl⟩
  · rintro ⟨hpos, ⟨c, hc, hcw⟩, hname⟩
    refine ⟨t.min_weight, ⟨c, ⟨hc, ?_⟩, hcw⟩, ?_⟩
    · rw [hcw]
      simpa using hpos
    · cases t with
      | mk nm mw => simp_all

/-- Demo cards of the C6 scenario: Alpha weight 70, Beta weight 30. -/
def c6cards : List Card :=
  [⟨"a", "Alpha", "", "", 70⟩, ⟨"b", "Beta", "", "", 30⟩]

/-- C6: when the tiers file is absent, malformed-free but not a list, or an
empty list, `reload` installs the synthesized tier list (one tier per
distinct positive card weight, labelled "Poids >= w", sorted descending);
the membership characterization of the synthesis; and the concrete scenario:
cards Alpha(70)/Beta(30) yield tiers [Poids >= 70, Poids >= 30],
probability(Alpha)=0.7, probability(Beta)=0.3, and Alpha classifies as
"Poids >= 70". -/
theorem c6_synthesized_tiers :
    (∀ (st : RepoState) (cs : List Card),
      reload st (CardsFile.ok cs) TiersFile.absent
          = ({ cards := cs, tiers := sortTiersDesc (tiersFromCards cs) }, true) ∧
      reload st (CardsFile.ok cs) TiersFile.notList
          = ({ cards := cs, tiers := sortTiersDesc (tiersFromCards cs) }, true) ∧
      reload st (CardsFile.ok cs) (TiersFile.ok [])
          = ({ cards := cs, tiers := sortTiersDesc (tiersFromCards cs) }, true)) ∧
    (∀ (cs : List Card) (t : Tier), t ∈ tiersFromCards cs ↔
      0 < t.min_weight ∧ (∃ c ∈ cs, c.weight = t.min_weight) ∧
      t.name = "Poids >= " ++ toString t.min_weight) ∧
    tiersFromCards c6cards = [⟨"Poids >= 70", 70⟩, ⟨"Poids >= 30", 30⟩] ∧
    sortTiersDesc (tiersFromCards c6cards)
      = [⟨"Poids >= 70", 70⟩, ⟨"Poids >= 30", 30⟩] ∧
    probability c6cards ⟨"a", "Alpha", "", "", 70⟩ = 7 / 10 ∧
    probability c6cards ⟨"b", "Beta", "", "", 30⟩ = 3 / 10 ∧
    tierForCard (sortTiersDesc (tiersFromCards c6cards))
      ⟨"a", "Alpha", "", "", 70⟩ = "Poids >= 70" := by
  have htot : totalWeight c6cards = 100 := by decide
  refine ⟨fun st cs => ⟨rfl, rfl, rfl⟩, tiersFromCards_mem, by decide, by decide,
    ?_, ?_, by decide⟩
  · simp only [probability, htot]
    norm_num
  · simp only [probability, htot]
    norm_num

/-! ### Dict model lemmas (for C7) -/

theorem dictMem_eq_isSome {β : Type} (m : List (String × β)) (k : String) :
    dictMem m k = (dictGet m k).isSome := by
  induction m with
  | nil => rfl
  | cons p m ih =>
    cases hp : (p.1 == k)
    · simpa [dictMem, dictGet, List.any_cons, List.find?_cons, hp] using ih
    · simp [dictMem, dictGet, List.any_cons, List.find?_cons, hp]

theorem dictGet_none_of_not_mem {β : Type} {m : List (String × β)} {k : String}
    (h : dictMem m k = false) : dictGet m k = none := by
  rw [dictMem_eq_isSome] at h
  cases hg : dictGet m k with
  | none => rfl
  | some v => rw [hg] at h; simp at h

theorem dictInsert_cons_ne {β : Type} (p : String × β) (m : List (String × β))
    (k : String) (v : β) (hp : (p.1 == k) = false) :
    dictInsert (p :: m) k v = p :: dictInsert m k v := by
  have hp' : ¬ (p.1 = k) := by simpa using hp
  cases hm : m.any (fun q => q.1 == k) <;>
    simp [dictInsert, dictMem, List.any_cons, hp, hm, hp']

theorem dictGet_cons_self {β : Type} {p : String × β} {m : List (String × β)}
    {k : String} (hp : (p.1 == k) = true) : dictGet (p :: m) k = some p.2 := by
  simp [dictGet, List.find?_cons, hp]

theorem dictGet_cons_ne {β : Type} {p : String × β} {m : List (String × β)}
    {k : String} (hp : (p.1 == k) = false) : dictGet (p :: m) k = dictGet m k := by
  simp [dictGet, List.find?_cons, hp]

theorem dictGet_insert_self {β : Type} :
    ∀ (m : List (String × β)) (k : String) (v : β),
      dictGet (dictInsert m k v) k = some v
  | [], k, v => by simp [dictInsert, dictMem, dictGet, List.find?_cons]
  | p :: m, k, v => by
    cases hp : (p.1 == k)
    · rw [dictInsert_cons_ne p m k v hp, dictGet_cons_ne hp]
      exact dictGet_insert_self m k v
    · have hmem : dictMem (p :: m) k = true := by
        simp [dictMem, List.any_cons, hp]
      unfold dictInsert
      rw [if_pos hmem, List.map_cons, if_pos hp]
      exact dictGet_cons_self (by simp)

theorem dictGet_map_update_ne {β : Type} (k k' : String) (v : β)
    (hk : (k == k') = false) :
    ∀ m : List (String × β),
      dictGet (m.map (fun p => if p.1 == k then (k, v) else p)) k' = dictGet m k'
  | [] => rfl
  | p :: m => by
    rw [List.map_cons]
    cases hp : (p.1 == k)
    · rw [if_neg (by simp [hp])]
      cases hpk : (p.1 == k')
      · rw [dictGet_cons_ne hpk, dictGet_cons_ne hpk]
        exact dictGet_map_update_ne k k' v hk m
      · rw [dictGet_cons_self hpk, dictGet_cons_self hpk]
    · rw [if_pos rfl]
      have hkv : (((k, v) : String × β).1 == k') = false := hk
      rw [dictGet_cons_ne hkv]
      have hp1 : p.1 = k := by simpa using hp
      have hpk' : (p.1 == k') = false := by rw [hp1]; exact hk
      rw [dictGet_cons_ne hpk']
      exact dictGet_map_update_ne k k' v hk m

theorem dictGet_append_single_ne {β : Type} (k k' : String) (v : β)
    (hk : (k == k') = false) :
    ∀ m : List (String × β), dictGet (m ++ [(k, v)]) k' = dictGet m k'
  | [] => dictGet_cons_ne hk
  | p :: m => by
    rw [List.cons_append]
    cases hp : (p.1 == k')
    · rw [dictGet_cons_ne hp, dictGet_cons_ne hp]
      exact dictGet_append_single_ne k k' v hk m
    · rw [dictGet_cons_self hp, dictGet_cons_self hp]

theorem dictGet_insert_ne {β : Type} (m : List (String × β)) (k k' : String)
    (v : β) (hk : (k == k') = false) :
    dictGet (dictInsert m k v) k' = dictGet m k' := by
  unfold dictInsert
  cases hm : dictMem m k with
  | true =>
    rw [if_pos rfl]
    exact dictGet_map_update_ne k k' v hk m
  | false =>
    rw [if_neg (by simp)]
    exact dictGet_append_single_ne k k' v hk m

theorem dictKeys_insert {β : Type} (m : List (String × β)) (k : String) (v : β) :
    dictKeys (dictInsert m k v)
      = if dictMem m k then dictKeys m else dictKeys m ++ [k] := by
  simp only [dictInsert]
  cases hm : dictMem m k with
  | true =>
    simp only [hm, if_true, dictKeys, List.map_map]
    refine List.map_congr_left (fun p _ => ?_)
    by_cases hp : p.1 = k
    · simp [hp]
    · simp [hp]
  | false => simp [hm, dictKeys]

theorem dictKeys_nodup_insert {β : Type} (m : List (String × β)) (k : String)
    (v : β) (h : (dictKeys m).Nodup) : (dictKeys (dictInsert m k v)).Nodup := by
  rw [dictKeys_insert]
  cases hm : dictMem m k with
  | true => simpa [hm] using h
  | false =>
    simp only [hm, Bool.false_eq_true, if_false]
    have hk : k ∉ dictKeys m := by
      intro hkm
      obtain ⟨p, hp, hpk⟩ := List.mem_map.mp hkm
      have : dictMem m k = true :=
        List.any_eq_true.mpr ⟨p, hp, by simp [hpk]⟩
      rw [hm] at this
      cases this
    simp [List.nodup_append, h, hk]

theorem mem_of_dictGet {β : Type} {m : List (String × β)} {k : String} {v : β}
    (h : dictGet m k = some v) : (k, v) ∈ m := by
  simp only [dictGet] at h
  cases hf : m.find? (fun p => p.1 == k) with
  | none => rw [hf] at h; cases h
  | some p =>
    rw [hf] at h
    have hp2 : p.2 = v := by simpa using h
    have hp1 : p.1 = k := by simpa using List.find?_some hf
    have hmem := List.mem_of_find?_eq_some hf
    have hpe : p = (k, v) := by
      cases p with
      | mk a b => simp_all
    exact hpe ▸ hmem

theorem dictGet_of_mem {β : Type} :
    ∀ {m : List (String × β)} {k : String} {v : β},
      (dictKeys m).Nodup → (k, v) ∈ m → dictGet m k = some v := by
  intro m
  induction m with
  | nil => intro k v _ hm; cases hm
  | cons p m ih =>
    intro k v h hm
    have hparts := List.nodup_cons.mp (show (p.1 :: dictKeys m).Nodup from h)
    cases List.mem_cons.mp hm with
    | inl he => rw [← he]; simp [dictGet, List.find?_cons]
    | inr ht =>
      have hp : (p.1 == k) = false := by
        cases hpk : (p.1 == k) with
        | false => rfl
        | true =>
          have hp1 : p.1 = k := by simpa using hpk
          have : k ∈ dictKeys m := List.mem_map.mpr ⟨(k, v), ht, rfl⟩
          exact absurd (hp1 ▸ this) hparts.1
      rw [dictGet_cons_ne hp]
      exact ih hparts.2 ht

theorem dictMem_insert_self {β : Type} (m : List (String × β)) (k : String)
    (v : β) : dictMem (dictInsert m k v) k = true := by
  rw [dictMem_eq_isSome, dictGet_insert_self]
  rfl

theorem dictMem_insert_mono {β : Type} (m : List (String × β)) (k k' : String)
    (v : β) (h : dictMem m k' = true) : dictMem (dictInsert m k v) k' = true := by
  cases hk : (k == k') with
  | true =>
    have : k = k' := by simpa using hk
    rw [← this]
    exact dictMem_insert_self m k v
  | false =>
    rw [dictMem_eq_isSome, dictGet_insert_ne m k k' v hk, ← dictMem_eq_isSome]
    exact h

theorem dictValSum_insert :
    ∀ (m : List (String × Int)) (k : String) (d : Int),
      (dictKeys m).Nodup →
      dictValSum (dictInsert m k ((dictGet m k).getD 0 + d)) = dictValSum m + d
  | [], k, d, _ => by
    simp [dictInsert, dictMem, dictGet, dictValSum]
  | p :: m, k, d, h => by
    have hparts := List.nodup_cons.mp (show (p.1 :: dictKeys m).Nodup from h)
    cases hp : (p.1 == k) with
    | false =>
      rw [dictGet_cons_ne hp, dictInsert_cons_ne p m k _ hp]
      simp only [dictValSum, List.map_cons, List.sum_cons]
      have := dictValSum_insert m k d hparts.2
      simp only [dictValSum] at this
      rw [this]
      ring
    | true =>
      have hp1 : p.1 = k := by simpa using hp
      have hmem : dictMem (p :: m) k = true := by
        simp [dictMem, List.any_cons, hp]
      have hget : dictGet (p :: m) k = some p.2 := dictGet_cons_self hp
      rw [hget]
      unfold dictInsert
      rw [if_pos hmem, List.map_cons, if_pos hp]
      have htail : m.map
          (fun q => if q.1 == k then (k, (some p.2).getD 0 + d) else q) = m := by
        have hid : ∀ q ∈ m,
            (if q.1 == k then (k, (some p.2).getD 0 + d) else q) = q := by
          intro q hq
          have hqk : (q.1 == k) = false := by
            cases hqk' : (q.1 == k) with
            | false => rfl
            | true =>
              have hq1 : q.1 = k := by simpa using hqk'
              have : q.1 ∈ dictKeys m := List.mem_map.mpr ⟨q, hq, rfl⟩
              rw [hq1, ← hp1] at this
              exact absurd this hparts.1
          simp [hqk]
        calc m.map (fun q => if q.1 == k then (k, (some p.2).getD 0 + d) else q)
            = m.map id := List.map_congr_left hid
          _ = m := List.map_id m
      rw [htail]
      simp [dictValSum]
      ring

/-! ### C7: summary percentages -/

theorem buildSums_fold_inv (tiers : List Tier) :
    ∀ (cards : List Card) (sums : List (String × Int)),
      (dictKeys sums).Nodup →
      (dictKeys (cards.foldl (fun sums c =>
          let tier := tierForCard tiers c
          dictInsert sums tier ((dictGet sums tier).getD 0 + max 0 c.weight))
        sums)).Nodup ∧
      dictValSum (cards.foldl (fun sums c =>
          let tier := tierForCard tiers c
          dictInsert sums tier ((dictGet sums tier).getD 0 + max 0 c.weight))
        sums) = dictValSum sums + totalWeight cards
  | [], sums, h => ⟨h, by simp [totalWeight]⟩
  | c :: cards, sums, h => by
    simp only [List.foldl_cons]
    have hn1 : (dictKeys (dictInsert sums (tierForCard tiers c)
        ((dictGet sums (tierForCard tiers c)).getD 0 + max 0 c.weight))).Nodup :=
      dictKeys_nodup_insert _ _ _ h
    obtain ⟨hn, hs⟩ := buildSums_fold_inv tiers cards
      (dictInsert sums (tierForCard tiers c)
        ((dictGet sums (tierForCard tiers c)).getD 0 + max 0 c.weight)) hn1
    refine ⟨hn, ?_⟩
    rw [hs, dictValSum_insert sums _ _ h]
    have htw : totalWeight (c :: cards) = max 0 c.weight + totalWeight cards := by
      simp [totalWeight]
    rw [htw]
    ring

theorem pct_map_sum (sums : List (String × Int)) (T : ℚ) :
    ((sums.map (fun p =>
        ((p.1, p.2, (p.2 : ℚ) / T * 100) : String × Int × ℚ))).map
      (fun q => q.2.2)).sum = ((dictValSum sums : Int) : ℚ) / T * 100 := by
  induction sums with
  | nil => simp [dictValSum]
  | cons p l ih =>
    simp only [List.map_cons, List.sum_cons, ih, dictValSum]
    push_cast
    ring

theorem orderedFold_inv (out : List (String × Int × ℚ)) :
    ∀ (tiers : List Tier) (od : List (String × Int × ℚ)),
      (dictKeys od).Nodup →
      (∀ k v, dictGet od k = some v → dictGet out k = some v) →
      (dictKeys (tiers.foldl (fun od t =>
          match dictGet out t.name with
          | some v => dictInsert od t.name v
          | none => od) od)).Nodup ∧
      (∀ k v, dictGet (tiers.foldl (fun od t =>
          match dictGet out t.name with
          | some v => dictInsert od t.name v
          | none => od) od) k = some v → dictGet out k = some v)
  | [], _, h1, h2 => ⟨h1, h2⟩
  | t :: tiers, od, h1, h2 => by
    simp only [List.foldl_cons]
    cases hg : dictGet out t.name with
    | none =>
      simp only [hg]
      exact orderedFold_inv out tiers od h1 h2
    | some v =>
      simp only [hg]
      refine orderedFold_inv out tiers (dictInsert od t.name v)
        (dictKeys_nodup_insert od t.name v h1) ?_
      intro k v' hgv
      cases hk : (t.name == k) with
      | true =>
        have he : t.name = k := by simpa using hk
        rw [← he] at hgv ⊢
        rw [dictGet_insert_self] at hgv
        injection hgv with hv
        rw [← hv]
        exact hg
      | false =>
        rw [dictGet_insert_ne od t.name k v hk] at hgv
        exact h2 k v' hgv

theorem addMissing_inv (out : List (String × Int × ℚ))
    (hout : (dictKeys out).Nodup) :
    ∀ (entries : List (String × Int × ℚ)) (od : List (String × Int × ℚ)),
      (∀ p ∈ entries, p ∈ out) →
      (dictKeys od).Nodup →
      (∀ k v, dictGet od k = some v → dictGet out k = some v) →
      (dictKeys (addMissing entries od)).Nodup ∧
      (∀ k v, dictGet (addMissing entries od) k = some v →
        dictGet out k = some v) ∧
      (∀ k, dictMem od k = true → dictMem (addMissing entries od) k = true) ∧
      (∀ p ∈ entries, dictMem (addMissing entries od) p.1 = true)
  | [], od, _, h1, h2 =>
    ⟨h1, h2, fun _ h => h, fun p hp => absurd hp (List.not_mem_nil p)⟩
  | p :: entries, od, hmem, h1, h2 => by
    have hpout : p ∈ out := hmem p (List.mem_cons_self p entries)
    have hstep : addMissing (p :: entries) od
        = addMissing entries
            (if dictMem od p.1 then od else dictInsert od p.1 p.2) := by
      simp only [addMissing, List.foldl_cons]
    rw [hstep]
    by_cases hm : dictMem od p.1 = true
    · rw [if_pos hm]
      obtain ⟨N, S, M, C⟩ := addMissing_inv out hout entries od
        (fun q hq => hmem q (List.mem_cons_of_mem p hq)) h1 h2
      refine ⟨N, S, M, ?_⟩
      intro q hq
      cases List.mem_cons.mp hq with
      | inl he => exact he ▸ M p.1 hm
      | inr ht => exact C q ht
    · rw [if_neg hm]
      have h1' := dictKeys_nodup_insert od p.1 p.2 h1
      have h2' : ∀ k v, dictGet (dictInsert od p.1 p.2) k = some v →
          dictGet out k = some v := by
        intro k v hg
        cases hk : (p.1 == k) with
        | true =>
          have he : p.1 = k := by simpa using hk
          rw [← he] at hg ⊢
          rw [dictGet_insert_self] at hg
          injection hg with hv
          rw [← hv]
          exact dictGet_of_mem hout hpout
        | false =>
          rw [dictGet_insert_ne od p.1 k p.2 hk] at hg
          exact h2 k v hg
      obtain ⟨N, S, M, C⟩ := addMissing_inv out hout entries
        (dictInsert od p.1 p.2)
        (fun q hq => hmem q (List.mem_cons_of_mem p hq)) h1' h2'
      refine ⟨N, S,
        fun k hkm => M k (dictMem_insert_mono od p.1 k p.2 hkm), ?_⟩
      intro q hq
      cases List.mem_cons.mp hq with
      | inl he => exact he ▸ M p.1 (dictMem_insert_self od p.1 p.2)
      | inr ht => exact C q ht

/-- C7: the percentages returned by `summary_by_tier` sum to exactly 100
when the total weight is positive, and are all 0 when the total weight is 0
(exact rational arithmetic standing for the float computation). -/
theorem c7_summary_pct (cards : List Card) (tiers : List Tier) :
    (0 < totalWeight cards →
      ((summaryByTier cards tiers).map (fun p => p.2.2)).sum = 100) ∧
    (totalWeight cards = 0 →
      ∀ p ∈ summaryByTier cards tiers, p.2.2 = 0) := by
  obtain ⟨hnodupS, hsumS⟩ := buildSums_fold_inv tiers cards [] (by simp [dictKeys])
  have hbuild_nodup : (dictKeys (buildSums cards tiers)).Nodup := hnodupS
  have hbuild_sum : dictValSum (buildSums cards tiers) = totalWeight cards := by
    rw [show dictValSum ([] : List (String × Int)) = 0 from rfl, zero_add] at hsumS
    exact hsumS
  have hkeysOut : dictKeys (outPhase cards tiers)
      = dictKeys (buildSums cards tiers) := by
    simp only [outPhase, dictKeys, List.map_map]
    exact List.map_congr_left (fun p _ => rfl)
  have hnodupOut : (dictKeys (outPhase cards tiers)).Nodup := by
    rw [hkeysOut]
    exact hbuild_nodup
  obtain ⟨hnodupOrd, hsoundOrd⟩ := orderedFold_inv (outPhase cards tiers) tiers []
    (by simp [dictKeys]) (fun k v h => by simp [dictGet] at h)
  obtain ⟨hnodupF, hsoundF, hmono, hcomplete⟩ :=
    addMissing_inv (outPhase cards tiers) hnodupOut (outPhase cards tiers)
      (orderedPhase (outPhase cards tiers) tiers)
      (fun p hp => hp) hnodupOrd hsoundOrd
  have hmemEquiv : ∀ x, x ∈ summaryByTier cards tiers ↔ x ∈ outPhase cards tiers := by
    intro x
    constructor
    · intro hx
      have hg : dictGet (summaryByTier cards tiers) x.1 = some x.2 :=
        dictGet_of_mem hnodupF hx
      exact mem_of_dictGet (hsoundF x.1 x.2 hg)
    · intro hx
      have hgo : dictGet (outPhase cards tiers) x.1 = some x.2 :=
        dictGet_of_mem hnodupOut hx
      have hmemF : dictMem (summaryByTier cards tiers) x.1 = true :=
        hcomplete x hx
      rw [dictMem_eq_isSome] at hmemF
      obtain ⟨v, hv⟩ := Option.isSome_iff_exists.mp hmemF
      have hsv := hsoundF x.1 v hv
      rw [hgo] at hsv
      injection hsv with hveq
      rw [← hveq] at hv
      exact mem_of_dictGet hv
  have hnodupFe : (summaryByTier cards tiers).Nodup :=
    List.Nodup.of_map Prod.fst hnodupF
  have hnodupOe : (outPhase cards tiers).Nodup :=
    List.Nodup.of_map Prod.fst hnodupOut
  have hperm : (summaryByTier cards tiers).Perm (outPhase cards tiers) :=
    (List.perm_ext_iff_of_nodup hnodupFe hnodupOe).mpr hmemEquiv
  constructor
  · intro hpos
    have hmapperm := hperm.map (fun p : String × Int × ℚ => p.2.2)
    rw [hmapperm.sum_eq]
    have houtmap : outPhase cards tiers
        = (buildSums cards tiers).map
            (fun p => (p.1, p.2, (p.2 : ℚ) / ((totalWeight cards : Int) : ℚ) * 100)) := by
      simp only [outPhase]
      exact List.map_congr_left (fun p _ => by simp [hpos])
    rw [houtmap, pct_map_sum, hbuild_sum]
    have hne : ((totalWeight cards : Int) : ℚ) ≠ 0 := by exact_mod_cast hpos.ne'
    rw [div_self hne, one_mul]
  · intro h0 p hp
    have hpo := (hmemEquiv p).mp hp
    simp only [outPhase] at hpo
    obtain ⟨q, hq, hpq⟩ := List.mem_map.mp hpo
    have hnotpos : ¬ 0 < totalWeight cards := by rw [h0]; exact lt_irrefl 0
    rw [← hpq]
    simp [hnotpos]

/-- C7 witness: concrete instantiation of `c7_summary_pct` on two cards of
weights 70 and 30 with a two-tier list. -/
theorem c7_summary_witness :
    0 < totalWeight [(⟨"a", "A", "", "", 70⟩ : Card), ⟨"b", "B", "", "", 30⟩] ∧
    ((summaryByTier [(⟨"a", "A", "", "", 70⟩ : Card), ⟨"b", "B", "", "", 30⟩]
        [⟨"High", 50⟩, ⟨"Low", 10⟩]).map (fun p => p.2.2)).sum = 100 :=
  ⟨by decide,
   (c7_summary_pct [⟨"a", "A", "", "", 70⟩, ⟨"b", "B", "", "", 30⟩]
     [⟨"High", 50⟩, ⟨"Low", 10⟩]).1 (by decide)⟩

end WorldIcons
